import Mathlib

/-!
Verification development for the `nw-dds-converter` repository.

The Rust sources are shallowly embedded:
* a filesystem path is its list of already-normalised components
  (`std::path::Component`), strings are lists of characters;
* `PathBuf::push`, `Path::strip_prefix`, `Path::with_extension`,
  `Path::extension` and `Path::file_stem` are modelled component-wise with
  the documented semantics of the Rust standard library (Unix flavour:
  no `Component::Prefix`);
* fallible code returns `Except`/`Option`; the external processes
  (texconv, ffmpeg) and the filesystem are opaque collaborators, so their
  outcomes are explicit inputs of the embedded functions;
* the single `f32` computation (`is_frame_mostly_black`'s ratio test) is
  modelled by exact rational arithmetic.
-/

set_option autoImplicit false

namespace DdsConv

/-- One component of a filesystem path, after the normalisation performed by
`std::path::Path::components` (Unix flavour: no `Prefix` component). -/
inductive Component where
  | rootDir
  | curDir
  | parentDir
  | normal (s : List Char)
  deriving DecidableEq, Repr

/-- Shorthand: a `Normal` component built from a string literal. -/
def nc (s : String) : Component :=
  Component.normal s.toList

/-- `c.isNormal` holds for `Component::Normal` components only. -/
def Component.isNormal : Component → Bool
  | Component.normal _ => true
  | _ => false

/-- `PathBuf::push` of a single component: pushing the root component
replaces the whole path (an absolute path replaces the receiver), every
other component is appended. -/
def pushComponent (p : List Component) (c : Component) : List Component :=
  match c with
  | Component.rootDir => [Component.rootDir]
  | c => p ++ [c]

/-- Split a character list at the LAST occurrence of `sep`:
`lastSplit sep s = some (a, b)` with `s = a ++ sep :: b` and `sep ∉ b`,
`none` when `sep` does not occur.  Used to model `str::rfind` and the
file-stem / extension split of `std::path`. -/
def lastSplit (sep : Char) : List Char → Option (List Char × List Char)
  | [] => none
  | c :: rest =>
    match lastSplit sep rest with
    | some (a, b) => some (c :: a, b)
    | none => if c = sep then some ([], rest) else none

/-- `Path::extension` on a file name: the portion after the last dot, unless
there is no dot or the only role of the dot is to lead a hidden-file name
(last dot at position 0). -/
def extension (name : List Char) : Option (List Char) :=
  match lastSplit '.' name with
  | some (a, b) => if a = [] then none else some b
  | none => none

/-- `Path::file_stem` on a file name: the portion before the extension, or
the whole name when there is no extension. -/
def fileStem (name : List Char) : List Char :=
  match lastSplit '.' name with
  | some (a, _) => if a = [] then name else a
  | none => name

/-- `PathBuf::set_extension` on a file name: the file stem, followed by a
dot and the new extension when the latter is non-empty. -/
def setExtension (name ext : List Char) : List Char :=
  if ext = [] then fileStem name else fileStem name ++ '.' :: ext

/-- `Path::with_extension` on a component list: rewrite the last component
when it is a `Normal` one (otherwise there is no file name and the path is
returned unchanged). -/
def withExtension : List Component → List Char → List Component
  | [], _ => []
  | [Component.normal s], ext => [Component.normal (setExtension s ext)]
  | [c], _ => [c]
  | c :: c' :: rest, ext => c :: withExtension (c' :: rest) ext

/-- `input_path.strip_prefix(input_dir).unwrap_or(input_path)` from
`calculate_output_path` (src/processor.rs): drop `input_dir`'s components
when they form a prefix of `input_path`'s, else keep `input_path` whole. -/
def relativeComponents (input_path input_dir : List Component) : List Component :=
  if input_dir <+: input_path then input_path.drop input_dir.length else input_path

/-- The `components_to_use` slice of `calculate_output_path`
(src/processor.rs): drop the first `strip_segments` components when
`strip_segments < path_components.len()`, else keep all components. -/
def componentsToUse (rel : List Component) (strip_segments : Nat) : List Component :=
  if strip_segments < rel.length then rel.drop strip_segments else rel

/-- The output path built by `calculate_output_path` before the extension
change: `output_dir` with each used component pushed in order. -/
def builtPath (input_path input_dir output_dir : List Component)
    (strip_segments : Nat) : List Component :=
  (componentsToUse (relativeComponents input_path input_dir) strip_segments).foldl
    pushComponent output_dir

/-- `calculate_output_path` (src/processor.rs, lines 6–32). -/
def calculate_output_path (input_path input_dir output_dir : List Component)
    (strip_segments : Nat) (format : List Char) : List Component :=
  withExtension (builtPath input_path input_dir output_dir strip_segments) format

/-- `p` stays inside `root`: `root`'s components lead `p` and everything
after them is a plain (`Normal`) component — no upward traversal, no
absolute restart. -/
def isDescendantOf (p root : List Component) : Prop :=
  root <+: p ∧ ∀ c ∈ p.drop root.length, c.isNormal = true

instance (p root : List Component) : Decidable (isDescendantOf p root) := by
  unfold isDescendantOf
  infer_instance

/-! ### Path lemmas -/

theorem foldl_pushComponent_of_normal (l : List Component)
    (h : ∀ c ∈ l, c.isNormal = true) (p : List Component) :
    l.foldl pushComponent p = p ++ l := by
  induction l generalizing p with
  | nil => simp
  | cons c l ih =>
    have hc : c.isNormal = true := h c (List.mem_cons_self c l)
    have hl : ∀ c ∈ l, c.isNormal = true := fun d hd => h d (List.mem_cons_of_mem c hd)
    cases c with
    | rootDir => simp [Component.isNormal] at hc
    | curDir =>
      simp only [List.foldl_cons, pushComponent, ih hl, List.append_assoc, List.singleton_append]
    | parentDir =>
      simp only [List.foldl_cons, pushComponent, ih hl, List.append_assoc, List.singleton_append]
    | normal s =>
      simp only [List.foldl_cons, pushComponent, ih hl, List.append_assoc, List.singleton_append]

theorem withExtension_append (p l : List Component) (hl : l ≠ []) (e : List Char) :
    withExtension (p ++ l) e = p ++ withExtension l e := by
  induction p with
  | nil => simp
  | cons c p ih =>
    cases hpl : p ++ l with
    | nil => exact absurd (List.append_eq_nil.mp hpl).2 hl
    | cons c' rest =>
      simp only [List.cons_append, hpl, withExtension]
      rw [← hpl, ih]

theorem withExtension_normal_of_normal (l : List Component) (e : List Char)
    (h : ∀ c ∈ l, c.isNormal = true) :
    ∀ c ∈ withExtension l e, c.isNormal = true := by
  induction l with
  | nil => simp [withExtension]
  | cons c l ih =>
    cases l with
    | nil =>
      cases c with
      | normal s => simp [withExtension, Component.isNormal]
      | rootDir => exact absurd (h _ (List.mem_cons_self _ _)) (by simp [Component.isNormal])
      | curDir => exact absurd (h _ (List.mem_cons_self _ _)) (by simp [Component.isNormal])
      | parentDir => exact absurd (h _ (List.mem_cons_self _ _)) (by simp [Component.isNormal])
    | cons c' rest =>
      intro d hd
      simp only [withExtension] at hd
      rcases List.mem_cons.mp hd with h1 | h2
      · exact h1 ▸ h c (List.mem_cons_self _ _)
      · exact ih (fun x hx => h x (List.mem_cons_of_mem c hx)) d h2

theorem withExtension_concat_normal (p : List Component) (s e : List Char) :
    withExtension (p ++ [Component.normal s]) e
      = p ++ [Component.normal (setExtension s e)] := by
  rw [withExtension_append p [Component.normal s] (by simp) e]
  rfl

theorem lastSplit_of_not_mem {sep : Char} {s : List Char} (h : sep ∉ s) :
    lastSplit sep s = none := by
  induction s with
  | nil => rfl
  | cons c rest ih =>
    have hc : c ≠ sep := fun hcs => h (hcs ▸ List.mem_cons_self c rest)
    have hrest : sep ∉ rest := fun hm => h (List.mem_cons_of_mem c hm)
    simp [lastSplit, ih hrest, hc]

theorem lastSplit_concat {sep : Char} (a b : List Char) (hb : sep ∉ b) :
    lastSplit sep (a ++ sep :: b) = some (a, b) := by
  induction a with
  | nil => simp [lastSplit, lastSplit_of_not_mem hb]
  | cons c a ih => simp [lastSplit, ih]

theorem fileStem_of_extension_none {s : List Char} (h : extension s = none) :
    fileStem s = s := by
  unfold extension at h
  unfold fileStem
  cases hs : lastSplit '.' s with
  | none => rfl
  | some ab =>
    rw [hs] at h
    obtain ⟨a, b⟩ := ab
    by_cases ha : a = [] <;> simp [ha] at h ⊢

/-! ### Claim C1 -/

/-- C1 is refuted by this input: `calculate_output_path` applied to the
input path `../secret` (not a descendant of the input root `a`) keeps the
`..` component, and the resulting path `out/../secret.png` escapes the
output root `out`. -/
theorem C1_counterexample :
    ¬ isDescendantOf
        (calculate_output_path [Component.parentDir, nc "secret"] [nc "a"] [nc "out"] 0
          "png".toList)
        [nc "out"] := by
  decide

/-- C1 (amended): the path returned by `calculate_output_path` is a
descendant of `output_root` provided the components actually used — the
relative path after the `strip_segments` drop — are non-empty and all plain
(`Normal`) components; with `..` or root components among them (possible
exactly when `input_path` is not a descendant of `input_root`), the result
can escape `output_root`. -/
theorem C1_output_path_stays_under_output_root
    (input_path input_dir output_dir : List Component) (strip_segments : Nat)
    (format : List Char)
    (hne : componentsToUse (relativeComponents input_path input_dir) strip_segments ≠ [])
    (hnorm : ∀ c ∈ componentsToUse (relativeComponents input_path input_dir) strip_segments,
      c.isNormal = true) :
    isDescendantOf
      (calculate_output_path input_path input_dir output_dir strip_segments format)
      output_dir := by
  unfold calculate_output_path builtPath
  rw [foldl_pushComponent_of_normal _ hnorm,
    withExtension_append _ _ hne]
  constructor
  · exact List.prefix_append _ _
  · intro c hc
    rw [List.drop_left] at hc
    exact withExtension_normal_of_normal _ _ hnorm c hc

theorem C1_output_path_stays_under_output_root_witness :
    isDescendantOf
      (calculate_output_path [nc "a", nc "b", nc "t.dds"] [nc "a"] [nc "out"] 0 "png".toList)
      [nc "out"] :=
  C1_output_path_stays_under_output_root _ _ _ _ _ (by decide) (by decide)

/-! ### Claim C8 -/

/-- C8's example is refuted: input `a/b/c/tex.dds`, root `a`, strip 5,
output root `out`, format `png` does NOT yield `out/tex.png` — the clamp
keeps ALL components of the relative path, yielding `out/b/c/tex.png`. -/
theorem C8_counterexample :
    calculate_output_path [nc "a", nc "b", nc "c", nc "tex.dds"] [nc "a"] [nc "out"] 5
        "png".toList
      ≠ [nc "out", nc "tex.png"] := by
  decide

/-- C8 (amended): `strip_segments ≥ component_count` behaves identically to
`strip_segments = component_count` (both keep ALL components of the
relative path), and the example input `a/b/c/tex.dds`, root `a`, strip 5,
output root `out`, format `png` yields `out/b/c/tex.png`. -/
theorem C8_strip_segments_clamp
    (input_path input_dir output_dir : List Component) (format : List Char)
    (s : Nat) (h : (relativeComponents input_path input_dir).length ≤ s) :
    (calculate_output_path input_path input_dir output_dir s format
      = calculate_output_path input_path input_dir output_dir
          (relativeComponents input_path input_dir).length format)
    ∧ calculate_output_path [nc "a", nc "b", nc "c", nc "tex.dds"] [nc "a"] [nc "out"] 5
          "png".toList
        = [nc "out", nc "b", nc "c", nc "tex.png"] := by
  constructor
  · unfold calculate_output_path builtPath componentsToUse
    rw [if_neg (Nat.not_lt.mpr h), if_neg (lt_irrefl _)]
  · decide

theorem C8_strip_segments_clamp_witness :
    calculate_output_path [nc "x", nc "y.dds"] [nc "x"] [nc "o"] 9 "png".toList
      = calculate_output_path [nc "x", nc "y.dds"] [nc "x"] [nc "o"]
          (relativeComponents [nc "x", nc "y.dds"] [nc "x"]).length "png".toList :=
  (C8_strip_segments_clamp _ _ _ _ 9 (by decide)).1

/-! ### Claim C10 -/

/-- C10: when the last component of the built output path has no extension
(in the `Path::extension` sense), `calculate_output_path` appends the
target format as a new extension; when it has an extension — its name
splits as `a.b` at the last dot with `a` non-empty — only the part after
the last dot is replaced by the format. -/
theorem C10_extension_replacement
    (input_path input_dir output_dir : List Component) (strip_segments : Nat)
    (format s : List Char) (p : List Component)
    (hfmt : format ≠ [])
    (hbuilt : builtPath input_path input_dir output_dir strip_segments
      = p ++ [Component.normal s]) :
    (extension s = none →
      calculate_output_path input_path input_dir output_dir strip_segments format
        = p ++ [Component.normal (s ++ '.' :: format)])
    ∧ (∀ a b : List Char, s = a ++ '.' :: b → '.' ∉ b → a ≠ [] →
      calculate_output_path input_path input_dir output_dir strip_segments format
        = p ++ [Component.normal (a ++ '.' :: format)]) := by
  unfold calculate_output_path
  rw [hbuilt, withExtension_concat_normal]
  constructor
  · intro hext
    rw [setExtension, if_neg hfmt, fileStem_of_extension_none hext]
  · intro a b hs hb ha
    rw [setExtension, if_neg hfmt]
    have : fileStem s = a := by
      unfold fileStem
      rw [hs, lastSplit_concat a b hb]
      simp [ha]
    rw [this]

theorem C10_extension_replacement_witness :
    calculate_output_path [nc "a", nc "tex"] [nc "a"] [nc "out"] 0 "png".toList
      = [nc "out"] ++ [Component.normal ("tex".toList ++ '.' :: "png".toList)] :=
  (C10_extension_replacement _ _ _ _ _ _ _ (by decide) (by decide)).1 (by decide)

/-! ### Sequence detection (`find_image_sequences`, src/animation.rs) -/

/-- UTF-8 byte length of a string (`str::len` counts bytes, not chars). -/
def byteLength (s : List Char) : Nat :=
  (s.map Char.utf8Size).sum

/-- The `while` loop of `find_image_sequences`' no-underscore branch
(src/animation.rs, lines 59–68), as a function of the running `base_end`:
decrement while the character at CHAR position `base_end - 1` — `'a'` when
that position is out of range, mirroring the source's `unwrap_or('a')` —
is an ASCII digit. -/
def baseEndLoop (stem : List Char) : Nat → Nat
  | 0 => 0
  | n + 1 => if (stem.getD n 'a').isDigit then baseEndLoop stem n else n + 1

/-- The grouping base name of a file stem (src/animation.rs, lines 51–74):
when the stem contains an underscore, split at the LAST one (`rfind`); the
base name is the part before it when the part after it consists of ASCII
digits only, else the whole stem.  When the stem contains no underscore,
the source runs the `base_end` loop starting from the stem's BYTE length
while indexing by CHAR position (`chars().nth(base_end - 1)`), so for a
stem containing any multi-byte character the first lookup is already out
of range and nothing is stripped.  When `base_end < byteLength stem` the
loop has decremented at least once, which forces the byte length to equal
the char count (every char one byte), so the source's byte slice
`file_name[..base_end]` coincides with the char-wise `take` used here. -/
def baseName (stem : List Char) : List Char :=
  match lastSplit '_' stem with
  | some (base, rest) =>
    if rest.all (fun c => c.isDigit) then base else stem
  | none =>
    let base_end := baseEndLoop stem (byteLength stem)
    if base_end < byteLength stem then stem.take base_end else stem

/-- The extension allow-list of `find_image_sequences` (src/animation.rs,
line 35): `matches!(ext, "png" | "dds" | "jpg" | "jpeg" | "bmp" | "tga")` —
an exact, case-sensitive comparison. -/
def isImageExt (e : List Char) : Bool :=
  if e = "png".toList then true
  else if e = "dds".toList then true
  else if e = "jpg".toList then true
  else if e = "jpeg".toList then true
  else if e = "bmp".toList then true
  else if e = "tga".toList then true
  else false

/-- The candidate filter of `find_image_sequences` (src/animation.rs,
lines 31–40): a directory entry participates in grouping exactly when its
file name has an extension on the allow-list. -/
def sequenceCandidate (name : List Char) : Bool :=
  match extension name with
  | some e => isImageExt e
  | none => false

/-! ### Byte-length and strip-loop lemmas -/

theorem length_le_byteLength (s : List Char) : s.length ≤ byteLength s := by
  induction s with
  | nil => exact Nat.le_refl 0
  | cons c cs ih =>
    have hpos : 0 < Char.utf8Size c := Char.utf8Size_pos c
    simp only [byteLength, List.map_cons, List.sum_cons, List.length_cons]
    simp only [byteLength] at ih
    omega

theorem byteLength_of_single_byte (s : List Char)
    (h : ∀ c ∈ s, Char.utf8Size c = 1) : byteLength s = s.length := by
  induction s with
  | nil => rfl
  | cons c cs ih =>
    have h1 : Char.utf8Size c = 1 := h c (List.mem_cons_self _ _)
    have h2 := ih (fun d hd => h d (List.mem_cons_of_mem _ hd))
    simp only [byteLength, List.map_cons, List.sum_cons, List.length_cons]
    simp only [byteLength] at h2
    omega

theorem length_lt_byteLength_of_multibyte (s : List Char)
    (h : ∃ c ∈ s, Char.utf8Size c ≠ 1) : s.length < byteLength s := by
  induction s with
  | nil =>
    obtain ⟨c, hc, _⟩ := h
    exact absurd hc (List.not_mem_nil c)
  | cons c cs ih =>
    have hle := length_le_byteLength cs
    have hpos : 0 < Char.utf8Size c := Char.utf8Size_pos c
    simp only [byteLength, List.map_cons, List.sum_cons, List.length_cons]
    simp only [byteLength] at hle
    obtain ⟨d, hd, hne⟩ := h
    rcases List.mem_cons.mp hd with rfl | hd'
    · omega
    · have hlt := ih ⟨d, hd', hne⟩
      simp only [byteLength] at hlt
      omega

theorem baseEndLoop_append (xs : List Char) (x : Char) :
    ∀ n, n ≤ xs.length → baseEndLoop (xs ++ [x]) n = baseEndLoop xs n := by
  intro n
  induction n with
  | zero => intro _; rfl
  | succ n ih =>
    intro h
    have hn : n < xs.length := h
    have hgd : (xs ++ [x]).getD n 'a' = xs.getD n 'a' := by
      rw [List.getD_eq_getElem?_getD, List.getElem?_append_left hn,
        ← List.getD_eq_getElem?_getD]
    simp only [baseEndLoop, hgd]
    split
    · exact ih (Nat.le_of_lt hn)
    · rfl

theorem baseEndLoop_length_eq (s : List Char) :
    baseEndLoop s s.length
      = s.length - (s.reverse.takeWhile (fun c => c.isDigit)).length := by
  induction s using List.reverseRecOn with
  | nil => rfl
  | append_singleton xs x ih =>
    have hlen : (xs ++ [x]).length = xs.length + 1 := by simp
    have hgd : (xs ++ [x]).getD xs.length 'a' = x := by
      rw [List.getD_eq_getElem?_getD, List.getElem?_concat_length]
      rfl
    have hrev : (xs ++ [x]).reverse = x :: xs.reverse := by simp
    have hk : (xs.reverse.takeWhile (fun c => c.isDigit)).length ≤ xs.length := by
      calc (xs.reverse.takeWhile (fun c => c.isDigit)).length
          ≤ xs.reverse.length := List.Sublist.length_le (List.takeWhile_sublist _)
        _ = xs.length := List.length_reverse _
    rw [hlen, hrev]
    simp only [baseEndLoop, hgd]
    cases hd : x.isDigit with
    | true =>
      rw [if_pos rfl]
      rw [baseEndLoop_append xs x xs.length (Nat.le_refl _), ih]
      simp [List.takeWhile_cons, hd]
    | false =>
      rw [if_neg (by simp)]
      simp [List.takeWhile_cons, hd]

/-! ### Claim C3 -/

/-- C3 is refuted by the stem `a_b9`: it contains an underscore whose
suffix `b9` is not all digits, so the claim's `otherwise` branch predicts
trailing-digit stripping (`a_b`), but the code returns the stem unchanged
(`a_b9`) — trailing digits are only stripped when the stem contains NO
underscore at all. -/
theorem C3_counterexample :
    baseName "a_b9".toList = "a_b9".toList ∧ "a_b9".toList ≠ "a_b".toList := by
  decide

/-- C3 (amended): if the stem contains an underscore and the text after the
last underscore is entirely decimal digits, the base name is the part
before that underscore; if the stem contains no underscore and all its
characters are single-byte (the byte length used to seed the loop then
equals the char count), the base name is the stem with its trailing run of
decimal digits stripped (the full stem when there are none); if the stem
contains no underscore but some character is multi-byte, the out-of-range
first lookup ends the loop at once and the FULL stem is kept, digits and
all; if the stem contains an underscore but the text after the last one is
not all digits, the base name is the FULL stem, with no trailing-digit
stripping. -/
theorem C3_base_name_of_stem (stem : List Char) :
    (∀ base rest : List Char, stem = base ++ '_' :: rest → '_' ∉ rest →
      rest.all (fun c => c.isDigit) = true → baseName stem = base)
    ∧ ('_' ∉ stem → (∀ c ∈ stem, Char.utf8Size c = 1) →
      baseName stem = (stem.reverse.dropWhile (fun c => c.isDigit)).reverse)
    ∧ ('_' ∉ stem → (∃ c ∈ stem, Char.utf8Size c ≠ 1) →
      baseName stem = stem)
    ∧ (∀ base rest : List Char, stem = base ++ '_' :: rest → '_' ∉ rest →
      rest.all (fun c => c.isDigit) = false → baseName stem = stem) := by
  refine ⟨fun base rest hs hr hd => ?_, fun hu hascii => ?_, fun hu hmb => ?_,
    fun base rest hs hr hd => ?_⟩
  · unfold baseName
    rw [hs, lastSplit_concat base rest hr]
    simp [hd]
  · unfold baseName
    rw [lastSplit_of_not_mem hu]
    simp only [byteLength_of_single_byte stem hascii, baseEndLoop_length_eq]
    have hdecomp : stem
        = (stem.reverse.dropWhile (fun c => c.isDigit)).reverse
          ++ (stem.reverse.takeWhile (fun c => c.isDigit)).reverse := by
      conv_lhs => rw [← List.reverse_reverse stem]
      rw [← List.reverse_append, List.takeWhile_append_dropWhile]
    by_cases hlt :
        stem.length - (stem.reverse.takeWhile (fun c => c.isDigit)).length < stem.length
    · rw [if_pos hlt]
      conv_lhs => rw [hdecomp]
      rw [List.take_left' (by simp)]
    · rw [if_neg hlt]
      have htw : (stem.reverse.takeWhile (fun c => c.isDigit)).length = 0 := by
        have hle : (stem.reverse.takeWhile (fun c => c.isDigit)).length
            ≤ stem.length := by
          calc (stem.reverse.takeWhile (fun c => c.isDigit)).length
              ≤ stem.reverse.length := List.Sublist.length_le (List.takeWhile_sublist _)
            _ = stem.length := List.length_reverse _
        omega
      have : stem.reverse.takeWhile (fun c => c.isDigit) = [] :=
        List.eq_nil_of_length_eq_zero htw
      conv_lhs => rw [hdecomp]
      rw [this]
      simp
  · unfold baseName
    rw [lastSplit_of_not_mem hu]
    have hlt := length_lt_byteLength_of_multibyte stem hmb
    cases hbl : byteLength stem with
    | zero => omega
    | succ m =>
      have hm : stem.length ≤ m := by omega
      have hgd : stem.getD m 'a' = 'a' := List.getD_eq_default _ _ hm
      have hda : ('a').isDigit = false := by decide
      simp only [baseEndLoop, hgd, hda]
      simp
  · unfold baseName
    rw [hs, lastSplit_concat base rest hr]
    simp [hd]

theorem C3_base_name_of_stem_witness :
    baseName "f_01".toList = "f".toList
    ∧ baseName "frame9".toList = "frame".toList
    ∧ baseName "é9".toList = "é9".toList :=
  ⟨(C3_base_name_of_stem _).1 "f".toList "01".toList (by decide) (by decide) (by decide),
    by
      have h := (C3_base_name_of_stem "frame9".toList).2.1 (by decide) (by decide)
      simpa using h,
    (C3_base_name_of_stem _).2.2.1 (by decide) (by decide)⟩

/-! ### Claim C9 -/

/-- C9: a stem ending in an underscore has an empty text after its last
underscore; the empty suffix passes the all-digits test, so the base name
is everything before that trailing underscore, and `abc_` groups with
`abc_1`. -/
theorem C9_trailing_underscore_groups (s : List Char) :
    baseName (s ++ ['_']) = s ∧ baseName "abc_".toList = baseName "abc_1".toList := by
  constructor
  · unfold baseName
    rw [lastSplit_concat s [] (by simp)]
    rfl
  · decide

/-! ### Claim C5 -/

/-- C5 is refuted by the file `a.PNG`: the allow-list comparison in
`find_image_sequences` is case-sensitive (`matches!` on the exact string),
so an upper-case `PNG` extension is NOT a grouping candidate even though
the claim says any letter case is accepted. -/
theorem C5_counterexample : sequenceCandidate "a.PNG".toList = false := by
  decide

/-- C5 (amended): `find_image_sequences` considers exactly those files
whose extension is literally one of `png`, `dds`, `jpg`, `jpeg`, `bmp`,
`tga` — compared case-SENSITIVELY, so differently-cased variants are
excluded. -/
theorem C5_extension_allow_list (name : List Char) :
    sequenceCandidate name = true ↔
      (extension name = some "png".toList ∨ extension name = some "dds".toList
        ∨ extension name = some "jpg".toList ∨ extension name = some "jpeg".toList
        ∨ extension name = some "bmp".toList ∨ extension name = some "tga".toList) := by
  unfold sequenceCandidate
  cases hx : extension name with
  | none => simp
  | some e =>
    show isImageExt e = true ↔ _
    unfold isImageExt
    split_ifs with h1 h2 h3 h4 h5 h6 <;> simp_all

theorem C5_extension_allow_list_witness :
    sequenceCandidate "b.tga".toList = true :=
  (C5_extension_allow_list "b.tga".toList).mpr (by decide)

/-! ### Frames (`image::RgbaImage`) and the trailing-blank rule
(src/animation.rs) -/

/-- One RGBA pixel (channel values are 0–255 bytes in the source; the
comparisons only use `< 10`, so plain naturals model them faithfully). -/
structure Rgba where
  r : Nat
  g : Nat
  b : Nat
  a : Nat
  deriving DecidableEq

/-- An `RgbaImage`: dimensions plus its pixels in iteration order. -/
structure Frame where
  width : Nat
  height : Nat
  pixels : List Rgba
  deriving DecidableEq

def defaultFrame : Frame := ⟨0, 0, []⟩

/-- The pixel-classification loop of `is_frame_mostly_black`
(src/animation.rs, lines 195–203): first component counts near-black
pixels (`a ≥ 10`, `r,g,b < 10`), second counts near-transparent pixels
(`a < 10`). -/
def blackTransparentCounts (pixels : List Rgba) : Nat × Nat :=
  pixels.foldl
    (fun acc px =>
      if px.a < 10 then (acc.1, acc.2 + 1)
      else if px.r < 10 ∧ px.g < 10 ∧ px.b < 10 then (acc.1 + 1, acc.2)
      else acc)
    (0, 0)

/-- `is_frame_mostly_black` (src/animation.rs, lines 190–207).  The single
floating-point computation of the source,
`(empty_pixels as f32 / total_pixels as f32) > 0.95`, is modelled by exact
rational arithmetic. -/
def is_frame_mostly_black (frame : Frame) : Bool :=
  let total_pixels := frame.width * frame.height
  let counts := blackTransparentCounts frame.pixels
  let empty_pixels := counts.1 + counts.2
  decide (((empty_pixels : ℚ) / (total_pixels : ℚ)) > 95 / 100)

/-- The fraction of near-black-or-transparent pixels of a frame (the two
classes are disjoint in the source loop, so their sum counts the union). -/
def emptyFraction (frame : Frame) : ℚ :=
  (((blackTransparentCounts frame.pixels).1
      + (blackTransparentCounts frame.pixels).2 : Nat) : ℚ)
    / ((frame.width * frame.height : Nat) : ℚ)

/-- The frame-drop step of `create_animation_from_sprite_sheet`
(src/animation.rs, lines 231–234): `frames.pop()` exactly when 24 frames
were extracted and the last one is mostly black. -/
def applyTrailingFrameRule (frames : List Frame) : List Frame :=
  if frames.length = 24 ∧ is_frame_mostly_black (frames.getD 23 defaultFrame) = true
  then frames.dropLast
  else frames

theorem is_frame_mostly_black_iff (frame : Frame) :
    is_frame_mostly_black frame = true ↔ emptyFraction frame > 95 / 100 := by
  unfold is_frame_mostly_black emptyFraction
  push_cast
  simp

/-! ### Claim C2 -/

/-- C2: the last extracted frame is dropped exactly when there are 24
frames and the 24th one's fraction of near-transparent (`alpha < 10`) or
near-black (`r,g,b < 10`) pixels exceeds 0.95; with any other frame count,
or with the fraction not exceeding 0.95, the frame list is unchanged. -/
theorem C2_trailing_blank_rule (frames : List Frame) :
    (frames.length = 24 → emptyFraction (frames.getD 23 defaultFrame) > 95 / 100 →
      applyTrailingFrameRule frames = frames.dropLast)
    ∧ (frames.length ≠ 24 → applyTrailingFrameRule frames = frames)
    ∧ (¬ emptyFraction (frames.getD 23 defaultFrame) > 95 / 100 →
      applyTrailingFrameRule frames = frames) := by
  refine ⟨fun h24 hfrac => ?_, fun h24 => ?_, fun hfrac => ?_⟩
  · exact if_pos ⟨h24, (is_frame_mostly_black_iff _).mpr hfrac⟩
  · exact if_neg (fun hc => h24 hc.1)
  · exact if_neg (fun hc => hfrac ((is_frame_mostly_black_iff _).mp hc.2))

theorem C2_trailing_blank_rule_witness :
    applyTrailingFrameRule (List.replicate 24 (⟨1, 1, [⟨0, 0, 0, 255⟩]⟩ : Frame))
      = (List.replicate 24 (⟨1, 1, [⟨0, 0, 0, 255⟩]⟩ : Frame)).dropLast :=
  (C2_trailing_blank_rule _).1 (by decide)
    (by
      rw [show (List.replicate 24 (⟨1, 1, [⟨0, 0, 0, 255⟩]⟩ : Frame)).getD 23 defaultFrame
          = ⟨1, 1, [⟨0, 0, 0, 255⟩]⟩ from by simp [List.getD]]
      norm_num [emptyFraction, blackTransparentCounts])

/-! ### Animation assembly (`create_webp_animation_with_ffmpeg`,
src/animation.rs) -/

/-- The collaborators of `create_webp_animation_with_ffmpeg`: outcomes of
the temp-dir creation, the per-frame PNG saves, the ffmpeg invocation
(`none` = process could not be spawned, `some b` = exited with
success `b`) and the fallback `fs::write`. -/
structure EncoderEnv where
  tempDirOk : Bool
  saveFramesOk : Bool
  ffmpegRun : Option Bool
  fallbackWriteOk : Bool
  deriving DecidableEq

/-- What ends up in the output file. -/
inductive WrittenOutput where
  | animation (frameCount : Nat)
  | staticFirstFrame (frame : Frame)
  deriving DecidableEq

/-- `create_webp_animation_with_ffmpeg` (src/animation.rs, lines 109–188):
returns the function's `Result` together with what was written to
`output_path` (`none` when nothing was written). -/
def create_webp_animation_with_ffmpeg (env : EncoderEnv) (frames : List Frame) :
    Except String Unit × Option WrittenOutput :=
  if frames.length = 0 then
    (Except.error "No frames to create WebP animation", none)
  else if env.tempDirOk = false then (Except.error "create_dir_all failed", none)
  else if env.saveFramesOk = false then (Except.error "frame save failed", none)
  else
    match env.ffmpegRun with
    | some true => (Except.ok (), some (WrittenOutput.animation frames.length))
    | some false =>
      if env.fallbackWriteOk = false then (Except.error "fs write failed", none)
      else (Except.ok (), some (WrittenOutput.staticFirstFrame (frames.headD defaultFrame)))
    | none =>
      if env.fallbackWriteOk = false then (Except.error "fs write failed", none)
      else (Except.ok (), some (WrittenOutput.staticFirstFrame (frames.headD defaultFrame)))

/-! ### Claim C7 -/

/-- C7: an empty frame list is a hard failure; for a non-empty list, when
ffmpeg cannot be spawned or exits non-zero (and the plain filesystem
writes succeed), the output file holds a static encode of the first frame
only and the call returns success — the same `Ok(())` as the
full-animation path, so the caller cannot distinguish the two. -/
theorem C7_assembler_empty_and_fallback (env : EncoderEnv) (frames : List Frame) :
    (frames = [] →
      create_webp_animation_with_ffmpeg env frames
        = (Except.error "No frames to create WebP animation", none))
    ∧ (frames ≠ [] → env.tempDirOk = true → env.saveFramesOk = true →
      env.fallbackWriteOk = true →
      (env.ffmpegRun = none ∨ env.ffmpegRun = some false) →
      create_webp_animation_with_ffmpeg env frames
          = (Except.ok (), some (WrittenOutput.staticFirstFrame (frames.headD defaultFrame)))
        ∧ (create_webp_animation_with_ffmpeg env frames).1
            = (create_webp_animation_with_ffmpeg
                { env with ffmpegRun := some true } frames).1) := by
  constructor
  · intro h
    subst h
    rfl
  · intro hne htmp hsave hwrite hff
    have hlen : ¬ frames.length = 0 := fun h => hne (List.eq_nil_of_length_eq_zero h)
    obtain ⟨t, s, f, w⟩ := env
    simp only at htmp hsave hwrite
    subst htmp hsave hwrite
    rcases hff with hff | hff <;>
      simp_all [create_webp_animation_with_ffmpeg]

theorem C7_assembler_empty_and_fallback_witness :
    create_webp_animation_with_ffmpeg ⟨true, true, none, true⟩ [defaultFrame]
      = (Except.ok (),
          some (WrittenOutput.staticFirstFrame (([defaultFrame] : List Frame).headD
            defaultFrame))) :=
  ((C7_assembler_empty_and_fallback ⟨true, true, none, true⟩ [defaultFrame]).2
    (by decide) rfl rfl rfl (Or.inl rfl)).1

/-! ### Batch conversion (`process_file`, src/processor.rs and the
awaiting loop of `main`, src/main.rs)

Each file's conversion is independent (no cross-file state), and `main`
awaits the spawned tasks in spawn order, so the run's tally is modelled by
folding over the per-file results in order; the semaphore only bounds how
many conversions are in flight and does not affect any per-file result. -/

/-- The collaborator outcomes seen by `process_file` for one file:
metadata read, file size, output-directory creation, texconv spawn, and
texconv's exit status. -/
structure FileSim where
  metaOk : Bool
  size : Nat
  mkdirOk : Bool
  spawnOk : Bool
  toolSuccess : Bool
  deriving DecidableEq

/-- `process_file` (src/processor.rs, lines 34–103). -/
def process_file (f : FileSim) (continue_on_error : Bool) : Except String Unit :=
  if f.metaOk = false then Except.error "Failed to read file metadata"
  else if f.size < 128 then Except.ok ()
  else if f.mkdirOk = false then Except.error "Failed to create output directory"
  else if f.spawnOk = false then Except.error "Failed to run texconv"
  else if f.toolSuccess = false then
    (if continue_on_error then Except.ok () else Except.error "texconv failed")
  else Except.ok ()

/-- The awaiting loop of `main` (src/main.rs, lines 102–111): count the
`Err` task results; on an `Err` with `continue_on_error = false` the loop
returns that error, else it proceeds.  On completion the run reports
`error_count`. -/
def tallyLoop (continue_on_error : Bool) : List (Except String Unit) → Except String Nat
  | [] => Except.ok 0
  | r :: rs =>
    match r with
    | Except.ok _ => tallyLoop continue_on_error rs
    | Except.error e =>
      if continue_on_error then
        match tallyLoop continue_on_error rs with
        | Except.ok n => Except.ok (n + 1)
        | Except.error e' => Except.error e'
      else Except.error e

/-- The whole batch run: every file through `process_file`, then `main`'s
awaiting loop.  `Except.ok n` means the run completed over all files with
`n` errors counted. -/
def runBatch (files : List FileSim) (continue_on_error : Bool) : Except String Nat :=
  tallyLoop continue_on_error (files.map (fun f => process_file f continue_on_error))

/-- A file whose conversion succeeds end to end. -/
def goodFile : FileSim := ⟨true, 200, true, true, true⟩

/-- A file whose texconv invocation exits with a non-zero status. -/
def toolFailFile : FileSim := ⟨true, 200, true, true, false⟩

/-! ### Claim C4 -/

/-- C4 is refuted: in a 5-file run with `continue_on_error = true` where
file 3's external conversion fails, the run completes but the tally
records 0 failed files, not 1 — `process_file` swallows the texconv
failure (it logs a warning and returns `Ok`), so nothing reaches `main`'s
error count and the run even reports full success. -/
theorem C4_counterexample :
    runBatch [goodFile, goodFile, toolFailFile, goodFile, goodFile] true = Except.ok 0
    ∧ (Except.ok 0 : Except String Nat) ≠ Except.ok 1 := by
  constructor
  · rfl
  · simp

/-- C4 (amended): with `continue_on_error = true`, a file whose external
conversion fails is only logged: its task still returns success, so the
run proceeds over all remaining files, completes, and its error tally
stays 0 (the failure is NOT recorded as a Failed outcome) — for any batch
whose per-file filesystem steps (metadata read, output-dir creation, tool
spawn) succeed, whatever the tools' exit statuses. -/
theorem C4_continue_on_error_swallows_tool_failures (files : List FileSim)
    (h : ∀ f ∈ files, f.metaOk = true ∧ f.mkdirOk = true ∧ f.spawnOk = true) :
    runBatch files true = Except.ok 0 := by
  induction files with
  | nil => rfl
  | cons f fs ih =>
    obtain ⟨h1, h2, h3⟩ := h f (List.mem_cons_self f fs)
    have hrest := ih (fun g hg => h g (List.mem_cons_of_mem f hg))
    have hok : process_file f true = Except.ok () := by
      unfold process_file
      rw [h1, h2, h3]
      simp
    unfold runBatch at hrest ⊢
    simpa [tallyLoop, hok] using hrest

theorem C4_continue_on_error_swallows_tool_failures_witness :
    runBatch [goodFile, toolFailFile, goodFile, toolFailFile, goodFile] true
      = Except.ok 0 :=
  C4_continue_on_error_swallows_tool_failures _ (by decide)

/-! ### Sprite-sheet parsing (`SpriteSheet`, src/sprite.rs)

The embedding is parametric in the coordinate-number type `α` and its
parser `pf` (the source parses `f32` via `str::parse`; the claims below
only concern which inputs parse, so the numeric type stays abstract).
Lines are the already-split lines of the XML text. -/

/-- `SpriteCell` (src/sprite.rs, lines 5–11), over an abstract number
type. -/
structure SpriteCell (α : Type) where
  topLeft : α × α
  topRight : α × α
  bottomLeft : α × α
  bottomRight : α × α
  deriving DecidableEq

/-- `parse_coords` (src/sprite.rs, lines 94–104): split on commas, demand
exactly two fields, parse each. -/
def parse_coords {α : Type} (pf : List Char → Option α) (coords_str : List Char) :
    Except String (α × α) :=
  let parts := coords_str.splitOn ','
  if parts.length ≠ 2 then Except.error "Invalid coordinate format"
  else
    match pf (parts.getD 0 []), pf (parts.getD 1 []) with
    | some x, some y => Except.ok (x, y)
    | none, _ => Except.error "Failed to parse X coordinate"
    | some _, none => Except.error "Failed to parse Y coordinate"

/-- `str::find` of a pattern: index of its first occurrence. -/
def findSub (pat : List Char) : List Char → Option Nat
  | [] => if pat = [] then some 0 else none
  | c :: rest =>
    if pat.isPrefixOf (c :: rest) then some 0
    else (findSub pat rest).map (· + 1)

/-- `extract_attribute` (src/sprite.rs, lines 83–92): locate
`name="value"` textually and return the value (first occurrence only). -/
def extract_attribute (line attr_name : List Char) : Option (List Char) :=
  let pat := attr_name ++ ['=', '"']
  match findSub pat line with
  | none => none
  | some start =>
    match findSub ['"'] (line.drop (start + pat.length)) with
    | none => none
    | some e => some ((line.drop (start + pat.length)).take e)

/-- One corner of `parse_cell_line`: absent attribute gives `none`, a
present one is parsed (errors propagate). -/
def cornerStep {α : Type} (pf : List Char → Option α) (line attr_name : List Char) :
    Except String (Option (α × α)) :=
  match extract_attribute line attr_name with
  | some v => (parse_coords pf v).map some
  | none => Except.ok none

/-- The corner-resolution tail of `parse_cell_line` (src/sprite.rs, lines
63–80): synthesize `topLeft = (bottomLeft.x, topRight.y)` when `topLeft`
is absent but `topRight` and `bottomLeft` are present; emit a cell only
when all four corners are resolved. -/
def assembleCell {α : Type} (tl0 tr0 bl0 br0 : Option (α × α)) : Option (SpriteCell α) :=
  let tl :=
    match tl0, tr0, bl0 with
    | none, some tr, some bl => some (bl.1, tr.2)
    | t, _, _ => t
  match tl, tr0, bl0, br0 with
  | some a, some b, some c, some d => some ⟨a, b, c, d⟩
  | _, _, _, _ => none

/-- `parse_cell_line` (src/sprite.rs, lines 42–81). -/
def parse_cell_line {α : Type} (pf : List Char → Option α) (line : List Char) :
    Except String (Option (SpriteCell α)) :=
  (cornerStep pf line "topLeft".toList).bind fun tl =>
    (cornerStep pf line "topRight".toList).bind fun tr =>
      (cornerStep pf line "bottomLeft".toList).bind fun bl =>
        (cornerStep pf line "bottomRight".toList).bind fun br =>
          Except.ok (assembleCell tl tr bl br)

/-- `str::trim`. -/
def trim (s : List Char) : List Char :=
  ((s.dropWhile fun c => c.isWhitespace).reverse.dropWhile fun c => c.isWhitespace).reverse

/-- The cell-record marker test of `from_xml_content` (src/sprite.rs,
line 32). -/
def isCellLine (t : List Char) : Bool :=
  ("<Cell ".toList).isPrefixOf t

/-- `from_xml_content` (src/sprite.rs, lines 26–40), over the text's
lines: parse every cell line, propagating the first error; parsed cells
accumulate in document order, `None` results are skipped. -/
def from_xml_lines {α : Type} (pf : List Char → Option α) :
    List (List Char) → Except String (List (SpriteCell α))
  | [] => Except.ok []
  | l :: ls =>
    if isCellLine (trim l) = true then
      match parse_cell_line pf (trim l) with
      | Except.error e => Except.error e
      | Except.ok cellOpt =>
        match from_xml_lines pf ls with
        | Except.error e => Except.error e
        | Except.ok cells =>
          Except.ok
            (match cellOpt with
              | some c => c :: cells
              | none => cells)
    else from_xml_lines pf ls

/-- The four corner attribute names. -/
def attrNames : List (List Char) :=
  ["topLeft".toList, "topRight".toList, "bottomLeft".toList, "bottomRight".toList]

/-- A present attribute whose value `parse_coords` rejects. -/
def attrMalformed {α : Type} (pf : List Char → Option α) (line attr_name : List Char) :
    Bool :=
  match extract_attribute line attr_name with
  | some v =>
    match parse_coords pf v with
    | Except.error _ => true
    | Except.ok _ => false
  | none => false

/-- The successfully parsed value of a corner attribute, when present. -/
def cornerVal {α : Type} (pf : List Char → Option α) (line attr_name : List Char) :
    Option (α × α) :=
  match extract_attribute line attr_name with
  | some v =>
    match parse_coords pf v with
    | Except.ok xy => some xy
    | Except.error _ => none
  | none => none

theorem cornerStep_ok_of_not_malformed {α : Type} (pf : List Char → Option α)
    (line a : List Char) (h : attrMalformed pf line a = false) :
    cornerStep pf line a = Except.ok (cornerVal pf line a) := by
  unfold attrMalformed at h
  unfold cornerStep cornerVal
  cases hx : extract_attribute line a with
  | none => simp [hx]
  | some v =>
    rw [hx] at h
    cases hp : parse_coords pf v with
    | error e => simp [hp] at h
    | ok xy => simp [hp, Except.map]

theorem cornerStep_error_of_malformed {α : Type} (pf : List Char → Option α)
    (line a : List Char) (h : attrMalformed pf line a = true) :
    ∃ e, cornerStep pf line a = Except.error e := by
  unfold attrMalformed at h
  unfold cornerStep
  cases hx : extract_attribute line a with
  | none => rw [hx] at h; simp at h
  | some v =>
    rw [hx] at h
    cases hp : parse_coords pf v with
    | error e => exact ⟨e, by simp [hp, Except.map]⟩
    | ok xy => simp [hp] at h

theorem parse_cell_line_ok {α : Type} (pf : List Char → Option α) (line : List Char)
    (h : ∀ a ∈ attrNames, attrMalformed pf line a = false) :
    parse_cell_line pf line
      = Except.ok (assembleCell (cornerVal pf line "topLeft".toList)
          (cornerVal pf line "topRight".toList) (cornerVal pf line "bottomLeft".toList)
          (cornerVal pf line "bottomRight".toList)) := by
  have h1 := cornerStep_ok_of_not_malformed pf line "topLeft".toList
    (h "topLeft".toList (by decide))
  have h2 := cornerStep_ok_of_not_malformed pf line "topRight".toList
    (h "topRight".toList (by decide))
  have h3 := cornerStep_ok_of_not_malformed pf line "bottomLeft".toList
    (h "bottomLeft".toList (by decide))
  have h4 := cornerStep_ok_of_not_malformed pf line "bottomRight".toList
    (h "bottomRight".toList (by decide))
  unfold parse_cell_line
  rw [h1, h2, h3, h4]
  rfl

theorem parse_cell_line_error_of_malformed {α : Type} (pf : List Char → Option α)
    (line : List Char) (h : ∃ a ∈ attrNames, attrMalformed pf line a = true) :
    ∃ e, parse_cell_line pf line = Except.error e := by
  cases h1 : attrMalformed pf line "topLeft".toList with
  | true =>
    obtain ⟨e, he⟩ := cornerStep_error_of_malformed pf line _ h1
    exact ⟨e, by unfold parse_cell_line; rw [he]; rfl⟩
  | false =>
    cases h2 : attrMalformed pf line "topRight".toList with
    | true =>
      obtain ⟨e, he⟩ := cornerStep_error_of_malformed pf line _ h2
      exact ⟨e, by
        unfold parse_cell_line
        rw [cornerStep_ok_of_not_malformed pf line _ h1, he]
        rfl⟩
    | false =>
      cases h3 : attrMalformed pf line "bottomLeft".toList with
      | true =>
        obtain ⟨e, he⟩ := cornerStep_error_of_malformed pf line _ h3
        exact ⟨e, by
          unfold parse_cell_line
          rw [cornerStep_ok_of_not_malformed pf line _ h1,
            cornerStep_ok_of_not_malformed pf line _ h2, he]
          rfl⟩
      | false =>
        cases h4 : attrMalformed pf line "bottomRight".toList with
        | true =>
          obtain ⟨e, he⟩ := cornerStep_error_of_malformed pf line _ h4
          exact ⟨e, by
            unfold parse_cell_line
            rw [cornerStep_ok_of_not_malformed pf line _ h1,
              cornerStep_ok_of_not_malformed pf line _ h2,
              cornerStep_ok_of_not_malformed pf line _ h3, he]
            rfl⟩
        | false =>
          obtain ⟨a, ha, hm⟩ := h
          have hfalse : attrMalformed pf line a = false := by
            rcases (show a = "topLeft".toList ∨ a = "topRight".toList
                ∨ a = "bottomLeft".toList ∨ a = "bottomRight".toList by
              simpa [attrNames] using ha) with rfl | rfl | rfl | rfl
            · exact h1
            · exact h2
            · exact h3
            · exact h4
          rw [hm] at hfalse
          exact Bool.noConfusion hfalse

theorem parse_cell_line_error_iff {α : Type} (pf : List Char → Option α)
    (line : List Char) :
    (∃ e, parse_cell_line pf line = Except.error e)
      ↔ ∃ a ∈ attrNames, attrMalformed pf line a = true := by
  constructor
  · intro ⟨e, he⟩
    by_contra hno
    push_neg at hno
    simp only [Bool.not_eq_true] at hno
    rw [parse_cell_line_ok pf line hno] at he
    exact Except.noConfusion he
  · exact parse_cell_line_error_of_malformed pf line

theorem from_xml_lines_error_iff {α : Type} (pf : List Char → Option α)
    (lines : List (List Char)) :
    (∃ e, from_xml_lines pf lines = Except.error e)
      ↔ ∃ l ∈ lines, isCellLine (trim l) = true
          ∧ ∃ a ∈ attrNames, attrMalformed pf (trim l) a = true := by
  induction lines with
  | nil => simp [from_xml_lines]
  | cons l ls ih =>
    simp only [from_xml_lines]
    by_cases hcell : isCellLine (trim l) = true
    · rw [if_pos hcell]
      cases hpc : parse_cell_line pf (trim l) with
      | error e =>
        constructor
        · intro _
          exact ⟨l, List.mem_cons_self l ls,
            hcell, (parse_cell_line_error_iff pf (trim l)).mp ⟨e, hpc⟩⟩
        · intro _
          exact ⟨e, rfl⟩
      | ok cellOpt =>
        have hnoerr : ¬ ∃ a ∈ attrNames, attrMalformed pf (trim l) a = true := by
          intro hmal
          obtain ⟨e, he⟩ := (parse_cell_line_error_iff pf (trim l)).mpr hmal
          rw [hpc] at he
          exact Except.noConfusion he
        constructor
        · intro hex
          obtain ⟨e, he⟩ := hex
          cases hrec : from_xml_lines pf ls with
          | error e' =>
            obtain ⟨l', hl', hprop⟩ := ih.mp ⟨e', hrec⟩
            exact ⟨l', List.mem_cons_of_mem l hl', hprop⟩
          | ok cells => rw [hrec] at he; exact Except.noConfusion he
        · intro hex
          obtain ⟨l', hl', hline, hattr⟩ := hex
          rcases List.mem_cons.mp hl' with rfl | hl'
          · exact absurd hattr hnoerr
          · obtain ⟨e, he⟩ := ih.mpr ⟨l', hl', hline, hattr⟩
            rw [he]
            exact ⟨e, rfl⟩
    · rw [if_neg hcell]
      constructor
      · intro hex
        obtain ⟨l', hl', hprop⟩ := ih.mp hex
        exact ⟨l', List.mem_cons_of_mem l hl', hprop⟩
      · intro hex
        obtain ⟨l', hl', hline, hattr⟩ := hex
        rcases List.mem_cons.mp hl' with rfl | hl'
        · exact absurd hline hcell
        · exact ih.mpr ⟨l', hl', hline, hattr⟩

/-! ### Claim C6 -/

/-- C6: sprite-sheet parsing fails exactly when some cell line carries a
present corner attribute whose value `parse_coords` rejects (not exactly
two comma-separated fields, or a field the number parser refuses); and a
cell line all of whose present attributes are well-formed but whose four
corners do not all resolve (after the `topLeft` synthesis rule) merely
contributes nothing: the parse of the remaining lines is returned
unchanged, with no error. -/
theorem C6_parse_error_characterisation {α : Type} (pf : List Char → Option α)
    (lines : List (List Char)) :
    ((∃ e, from_xml_lines pf lines = Except.error e)
      ↔ ∃ l ∈ lines, isCellLine (trim l) = true
          ∧ ∃ a ∈ attrNames, attrMalformed pf (trim l) a = true)
    ∧ (∀ l ls, isCellLine (trim l) = true →
      (∀ a ∈ attrNames, attrMalformed pf (trim l) a = false) →
      assembleCell (cornerVal pf (trim l) "topLeft".toList)
          (cornerVal pf (trim l) "topRight".toList)
          (cornerVal pf (trim l) "bottomLeft".toList)
          (cornerVal pf (trim l) "bottomRight".toList) = none →
      from_xml_lines pf (l :: ls) = from_xml_lines pf ls) := by
  constructor
  · exact from_xml_lines_error_iff pf lines
  · intro l ls hcell hattrs hnone
    simp only [from_xml_lines]
    rw [if_pos hcell, parse_cell_line_ok pf (trim l) hattrs, hnone]
    cases hrec : from_xml_lines pf ls <;> rfl

/-- A concrete number parser for the witness: every field parses. -/
def pfUnit : List Char → Option Unit := fun _ => some ()

theorem C6_parse_error_characterisation_witness :
    from_xml_lines pfUnit ["<Cell topRight=\"1,0\"".toList, "junk".toList]
      = from_xml_lines pfUnit ["junk".toList] :=
  (C6_parse_error_characterisation pfUnit []).2 "<Cell topRight=\"1,0\"".toList
    ["junk".toList] (by decide) (by decide) (by decide)

end DdsConv
